import Mathlib

/-!
Verification of the content-tree and navigation-rendering pipeline of the
static-site-generator sources (`src/main2.cpp` first variant and
`src/main5.cpp`).  The C++ functions are shallowly embedded: filenames are
`String`s, filesystem paths are lists of path components (`List String`),
`std::filesystem::path::extension`/`stem`/`replace_extension` are modelled
by `fsExtSplit` following the documented C++ semantics (rightmost period of
the filename, a leading period of a dot-file does not start an extension,
`.` and `..` have no extension), and the recursive tree walks become
structurally recursive Lean functions.
-/

/-- Scans the reversed character list of a filename for its extension.
First argument: the still unprocessed characters, rightmost first.  Second
argument: the characters already walked over, in original order (they form
the tail of the extension candidate).  Returns `(stem, extension)` split at
the rightmost period, or `none` when there is no period or the only period
is the leading character of the filename (dot-file rule of
`std::filesystem::path::extension`). -/
def extSplitAux : List Char → List Char → Option (List Char × List Char)
  | [], _ => none
  | c :: rest, acc =>
    if c = '.' then
      if rest = [] then none else some (rest.reverse, c :: acc)
    else extSplitAux rest (c :: acc)

/-- Splits a filename into `(stem, extension)` exactly as
`std::filesystem::path::stem`/`extension` do on a plain filename: the split
is at the rightmost period, except that `"."`, `".."` and dot-files whose
only period is the first character have no extension. -/
def fsExtSplit (f : String) : Option (String × String) :=
  if f = "." ∨ f = ".." then none
  else
    match extSplitAux f.data.reverse [] with
    | none => none
    | some (s, e) => some (String.mk s, String.mk e)

/-- Model of `path::extension()` on a filename: the extension including its
period, or `""` when there is none. -/
def fsExtension (f : String) : String :=
  match fsExtSplit f with
  | some (_, e) => e
  | none => ""

/-- Model of `path::stem()` on a filename: the filename with its extension
removed (the whole filename when there is no extension). -/
def fsStem (f : String) : String :=
  match fsExtSplit f with
  | some (s, _) => s
  | none => f

/-- Model of `getTargetFilename` (`src/main2.cpp`): if the filename's
extension is `.md` it is replaced by `.html` (`replace_extension(".html")`
removes the extension and appends the new one), every other filename is
returned unchanged. -/
def getTargetFilename (f : String) : String :=
  if fsExtension f = ".md" then fsStem f ++ ".html" else f

/-- The proposition that the string `suf` is a literal suffix of `f`. -/
def strEndsWith (f suf : String) : Prop := suf.data <:+ f.data

instance (f suf : String) : Decidable (strEndsWith f suf) := by
  unfold strEndsWith; infer_instance

/-- Model of `path::generic_string()` for a relative path given by its
components: the components joined by forward slashes. -/
def pathString (p : List String) : String := String.intercalate "/" p

/-- Model of `getBackPrefix` (`src/main2.cpp`): one `"../"` is appended per
component of the relative path, starting from the empty string. -/
def getBackPrefix (rp : List String) : String :=
  rp.foldl (fun acc _ => acc ++ "../") ""

/-! Basic facts about the extension split. -/

theorem extSplitAux_sound : ∀ (rcs acc s e : List Char),
    extSplitAux rcs acc = some (s, e) →
    rcs.reverse ++ acc = s ++ e ∧ ∃ mid, e = '.' :: (mid ++ acc) := by
  intro rcs
  induction rcs with
  | nil => intro acc s e h; simp [extSplitAux] at h
  | cons c rest ih =>
    intro acc s e h
    unfold extSplitAux at h
    by_cases hc : c = '.'
    · rw [if_pos hc] at h
      by_cases hr : rest = []
      · rw [if_pos hr] at h; exact absurd h (by simp)
      · rw [if_neg hr] at h
        have h2 := Option.some.inj h
        have hs : rest.reverse = s := congrArg Prod.fst h2
        have he : c :: acc = e := congrArg Prod.snd h2
        subst hs; subst he; subst hc
        refine ⟨by simp, [], by simp⟩
    · rw [if_neg hc] at h
      obtain ⟨h1, mid, h2⟩ := ih (c :: acc) s e h
      refine ⟨by simpa using h1, mid ++ [c], by simpa using h2⟩

theorem extSplitAux_md (pre : List Char) (hpre : pre ≠ []) :
    extSplitAux ((pre ++ ['.', 'm', 'd']).reverse) [] = some (pre, ['.', 'm', 'd']) := by
  have h1 : (pre ++ ['.', 'm', 'd']).reverse = 'd' :: 'm' :: '.' :: pre.reverse := by
    simp
  rw [h1]
  simp [extSplitAux, hpre]

theorem fsExtSplit_sound (f s e : String) (h : fsExtSplit f = some (s, e)) :
    f.data = s.data ++ e.data ∧ ∃ mid, e.data = '.' :: mid := by
  unfold fsExtSplit at h
  by_cases hf : f = "." ∨ f = ".."
  · simp [hf] at h
  · simp only [if_neg hf] at h
    cases haux : extSplitAux f.data.reverse [] with
    | none => rw [haux] at h; simp at h
    | some pr =>
      rw [haux] at h
      obtain ⟨sd, ed⟩ := pr
      simp only [Option.some.injEq, Prod.mk.injEq] at h
      obtain ⟨hs, he⟩ := h
      obtain ⟨h1, mid, h2⟩ := extSplitAux_sound _ _ _ _ haux
      subst hs; subst he
      refine ⟨?_, mid, by simpa using h2⟩
      simpa using h1

/-- A filename ending in `.md`, other than the bare dot-file `".md"`,
splits into its first `length - 3` characters and the extension `".md"`. -/
theorem fsExtSplit_ends_md (f : String) (h : strEndsWith f ".md") (hne : f ≠ ".md") :
    fsExtSplit f = some (String.mk (f.data.take (f.data.length - 3)), ".md") := by
  obtain ⟨pre, hpre⟩ := h
  have hdata : f.data = pre ++ ['.', 'm', 'd'] := by
    simpa using hpre.symm
  have hpre_ne : pre ≠ [] := by
    intro hnil
    apply hne
    apply String.ext
    rw [hdata, hnil]
    rfl
  have hlen : f.data.length = pre.length + 3 := by rw [hdata]; simp
  have hd1 : f ≠ "." := by
    intro hf; subst hf
    have e1 : (".").data = ['.'] := rfl
    rw [e1] at hlen
    simp at hlen
  have hd2 : f ≠ ".." := by
    intro hf; subst hf
    have e1 : ("..").data = ['.', '.'] := rfl
    rw [e1] at hlen
    simp at hlen
  unfold fsExtSplit
  rw [if_neg (by tauto)]
  rw [hdata, extSplitAux_md pre hpre_ne]
  have hl2 : (pre ++ ['.', 'm', 'd']).length - 3 = pre.length := by simp
  rw [hl2]
  have htake : (pre ++ ['.', 'm', 'd']).take pre.length = pre := List.take_left pre _
  rw [htake]

theorem extSplitAux_stem_ne : ∀ (rcs acc s e : List Char),
    extSplitAux rcs acc = some (s, e) → s ≠ [] := by
  intro rcs
  induction rcs with
  | nil => intro acc s e h; simp [extSplitAux] at h
  | cons c rest ih =>
    intro acc s e h
    unfold extSplitAux at h
    by_cases hc : c = '.'
    · rw [if_pos hc] at h
      by_cases hr : rest = []
      · rw [if_pos hr] at h; exact absurd h (by simp)
      · rw [if_neg hr] at h
        have hs : rest.reverse = s := congrArg Prod.fst (Option.some.inj h)
        rw [← hs]
        simpa using hr
    · rw [if_neg hc] at h
      exact ih (c :: acc) s e h

/-- Every extension returned by the split is a literal suffix of the
filename. -/
theorem ends_of_fsExtSplit (f s e : String) (h : fsExtSplit f = some (s, e)) :
    strEndsWith f e := by
  obtain ⟨h1, _⟩ := fsExtSplit_sound f s e h
  exact ⟨s.data, h1.symm⟩

theorem fsExtension_eq_iff_split (f e : String) (he : e ≠ "") :
    fsExtension f = e ↔ ∃ s, fsExtSplit f = some (s, e) := by
  unfold fsExtension
  cases hs : fsExtSplit f with
  | none => simp [Ne.symm he]
  | some pr =>
    obtain ⟨s0, e0⟩ := pr
    constructor
    · intro h1
      have h1' : e0 = e := h1
      exact ⟨s0, by rw [h1']⟩
    · rintro ⟨s, h1⟩
      have h2 := Option.some.inj h1
      show e0 = e
      exact congrArg Prod.snd h2

theorem fsExtension_ends_md (f : String) (h : strEndsWith f ".md") (hne : f ≠ ".md") :
    fsExtension f = ".md" := by
  unfold fsExtension
  rw [fsExtSplit_ends_md f h hne]

theorem ends_md_of_fsExtension (f : String) (h : fsExtension f = ".md") :
    strEndsWith f ".md" := by
  obtain ⟨s, hs⟩ := (fsExtension_eq_iff_split f ".md" (by decide)).1 h
  exact ends_of_fsExtSplit f s ".md" hs

/-- A filename whose extension splits off has a nonempty stem (the dot-file
rule guarantees the rightmost period counted is never the first
character). -/
theorem fsExtSplit_stem_ne (f s e : String) (h : fsExtSplit f = some (s, e)) :
    s.data ≠ [] := by
  unfold fsExtSplit at h
  by_cases hf : f = "." ∨ f = ".."
  · simp [hf] at h
  · rw [if_neg hf] at h
    cases haux : extSplitAux f.data.reverse [] with
    | none => rw [haux] at h; simp at h
    | some pr =>
      obtain ⟨sd, ed⟩ := pr
      rw [haux] at h
      have hs : String.mk sd = s := congrArg Prod.fst (Option.some.inj h)
      have := extSplitAux_stem_ne _ _ _ _ haux
      rw [← hs]
      simpa using this

theorem extSplitAux_html (pre : List Char) (hpre : pre ≠ []) :
    extSplitAux ((pre ++ ['.', 'h', 't', 'm', 'l']).reverse) [] =
      some (pre, ['.', 'h', 't', 'm', 'l']) := by
  have h1 : (pre ++ ['.', 'h', 't', 'm', 'l']).reverse =
      'l' :: 'm' :: 't' :: 'h' :: '.' :: pre.reverse := by simp
  rw [h1]
  simp [extSplitAux, hpre]

/-- Appending `".html"` to a nonempty stem yields a filename whose
extension is `".html"`. -/
theorem fsExtension_append_html (s : String) (hs : s.data ≠ []) :
    fsExtension (s ++ ".html") = ".html" := by
  have hdata : (s ++ ".html").data = s.data ++ ['.', 'h', 't', 'm', 'l'] := rfl
  have hlen : (s ++ ".html").data.length = s.data.length + 5 := by rw [hdata]; simp
  have hd1 : s ++ ".html" ≠ "." := by
    intro hf
    rw [hf] at hlen
    have e1 : (".").data = ['.'] := rfl
    rw [e1] at hlen; simp at hlen
  have hd2 : s ++ ".html" ≠ ".." := by
    intro hf
    rw [hf] at hlen
    have e1 : ("..").data = ['.', '.'] := rfl
    rw [e1] at hlen; simp at hlen
  unfold fsExtension fsExtSplit
  rw [if_neg (by tauto), hdata, extSplitAux_html s.data hs]

/-! Behaviour of `getTargetFilename` (the Path Mapper's `mapTarget`). -/

theorem getTargetFilename_ends_md (f : String) (h : strEndsWith f ".md") (hne : f ≠ ".md") :
    getTargetFilename f = String.mk (f.data.take (f.data.length - 3)) ++ ".html" := by
  unfold getTargetFilename
  rw [if_pos (fsExtension_ends_md f h hne)]
  unfold fsStem
  rw [fsExtSplit_ends_md f h hne]

theorem getTargetFilename_not_md (f : String) (h : ¬ strEndsWith f ".md") :
    getTargetFilename f = f := by
  unfold getTargetFilename
  rw [if_neg]
  intro hx
  exact h (ends_md_of_fsExtension f hx)

theorem getTargetFilename_idem (f : String) :
    getTargetFilename (getTargetFilename f) = getTargetFilename f := by
  by_cases hx : fsExtension f = ".md"
  · have h1 : getTargetFilename f = fsStem f ++ ".html" := by
      unfold getTargetFilename; rw [if_pos hx]
    obtain ⟨s, hs⟩ := (fsExtension_eq_iff_split f ".md" (by decide)).1 hx
    have hstem : fsStem f = s := by unfold fsStem; rw [hs]
    have hne : (fsStem f).data ≠ [] := by
      rw [hstem]; exact fsExtSplit_stem_ne f s ".md" hs
    have h2 : fsExtension (fsStem f ++ ".html") = ".html" :=
      fsExtension_append_html (fsStem f) hne
    rw [h1]
    unfold getTargetFilename
    rw [if_neg (by rw [h2]; decide)]
  · have h1 : getTargetFilename f = f := by unfold getTargetFilename; rw [if_neg hx]
    rw [h1, h1]

/-! The in-memory content tree (`struct DirNode` of `src/main2.cpp`):
relative path of the directory, its own name, the eligible file names
directly inside it, and the child directories. -/

inductive DirNode where
  | mk : List String → String → List String → List DirNode → DirNode

def DirNode.relativePath : DirNode → List String
  | .mk rp _ _ _ => rp

def DirNode.dirName : DirNode → String
  | .mk _ dn _ _ => dn

def DirNode.files : DirNode → List String
  | .mk _ _ fs _ => fs

def DirNode.subdirs : DirNode → List DirNode
  | .mk _ _ _ subs => subs

/-- One `<li>` line emitted for a file of the current node, exactly as the
`std::format` call in `generateNavHtml` produces it: href is
`urlPrefix + fullLinkPath.generic_string()`, the `class="active"` attribute
appears iff `fullLinkPath == activeTargetFile`, and the link text is the
file's stem. -/
def navFileItem (rp : List String) (f : String) (pre : String) (act : List String) : String :=
  "  <li><a href=\"" ++ (pre ++ pathString (rp ++ [getTargetFilename f])) ++ "\"" ++
    (if rp ++ [getTargetFilename f] = act then " class=\"active\"" else "") ++ ">" ++
    fsStem f ++ "</a></li>\n"

/-- The single link emitted for a sub-directory holding exactly one file
(the collapsing branch of `generateNavHtml`): label is the directory name,
href points at that one file's target path. -/
def navCollapsedItem (s : DirNode) (f0 : String) (pre : String) (act : List String) : String :=
  "  <li><a href=\"" ++ (pre ++ pathString (s.relativePath ++ [getTargetFilename f0])) ++ "\"" ++
    (if s.relativePath ++ [getTargetFilename f0] = act then " class=\"active\"" else "") ++ ">" ++
    s.dirName ++ "</a></li>\n"

mutual
/-- Model of `generateNavHtml` (`src/main2.cpp`, first variant).  The C++
function appends to the `html` argument passed by reference; here the
accumulator is threaded explicitly.  `navGo` handles one node (open the
list, emit its files in order, process the sub-directories, close the
list); `navSubsGo` is the loop over the sub-directories, collapsing a child
with exactly one file into a single link and otherwise emitting a
`<strong>` heading followed by the recursive call and the item close
marker. -/
def navGo : DirNode → String → String → List String → String
  | .mk rp _ fs subs, html, pre, act =>
    let h1 := html ++ "<ul>\n"
    let h2 := fs.foldl (fun h f => h ++ navFileItem rp f pre act) h1
    navSubsGo subs h2 pre act ++ "</ul>\n"
def navSubsGo : List DirNode → String → String → List String → String
  | [], h, _, _ => h
  | s :: rest, h, pre, act =>
    let h2 :=
      match s.files with
      | [f0] => h ++ navCollapsedItem s f0 pre act
      | _ => navGo s (h ++ "  <li><strong>" ++ s.dirName ++ "</strong>\n") pre act ++ "  </li>\n"
    navSubsGo rest h2 pre act
end

/-- `generateNavHtml` as called by `processFiles`: rendering starts at the
tree root with an empty accumulator. -/
def generateNavHtml (root : DirNode) (pre : String) (act : List String) : String :=
  navGo root "" pre act

theorem strFoldl_append {α : Type} (g : α → String) :
    ∀ (l : List α) (s t : String),
      l.foldl (fun h a => h ++ g a) (s ++ t) = s ++ l.foldl (fun h a => h ++ g a) t := by
  intro l
  induction l with
  | nil => intro s t; rfl
  | cons a l ih =>
    intro s t
    show l.foldl _ ((s ++ t) ++ g a) = s ++ l.foldl _ (t ++ g a)
    rw [String.append_assoc]
    exact ih s (t ++ g a)

mutual
/-- The renderer only appends: running it on accumulator `h` yields `h`
followed by what it produces from the empty accumulator. -/
theorem navGo_append : ∀ (node : DirNode) (h pre : String) (act : List String),
    navGo node h pre act = h ++ navGo node "" pre act
  | .mk rp dn fs subs, h, pre, act => by
    show navSubsGo subs (fs.foldl _ (h ++ "<ul>\n")) pre act ++ "</ul>\n" =
      h ++ (navSubsGo subs (fs.foldl _ ("" ++ "<ul>\n")) pre act ++ "</ul>\n")
    rw [strFoldl_append, strFoldl_append,
      navSubsGo_append subs (h ++ fs.foldl (fun h f => h ++ navFileItem rp f pre act) "<ul>\n") pre act,
      navSubsGo_append subs ("" ++ fs.foldl (fun h f => h ++ navFileItem rp f pre act) "<ul>\n") pre act]
    simp [String.append_assoc]
theorem navSubsGo_append : ∀ (subs : List DirNode) (h pre : String) (act : List String),
    navSubsGo subs h pre act = h ++ navSubsGo subs "" pre act
  | [], h, pre, act => by
    show h = h ++ ""
    simp
  | s :: rest, h, pre, act => by
    obtain ⟨rp, dn, fs, subs⟩ := s
    show navSubsGo rest _ pre act = h ++ navSubsGo rest _ pre act
    cases hf : fs with
    | nil =>
      simp only [DirNode.files, DirNode.dirName]
      rw [navGo_append (.mk rp dn [] subs) (h ++ "  <li><strong>" ++ dn ++ "</strong>\n") pre act,
        navGo_append (.mk rp dn [] subs) ("" ++ "  <li><strong>" ++ dn ++ "</strong>\n") pre act,
        navSubsGo_append rest _ pre act,
        navSubsGo_append rest ("" ++ "  <li><strong>" ++ dn ++ "</strong>\n" ++ _ ++ "  </li>\n") pre act]
      simp [String.append_assoc]
    | cons f0 tl =>
      cases tl with
      | nil =>
        simp only [DirNode.files, DirNode.dirName]
        rw [navSubsGo_append rest (h ++ navCollapsedItem (.mk rp dn [f0] subs) f0 pre act) pre act,
          navSubsGo_append rest ("" ++ navCollapsedItem (.mk rp dn [f0] subs) f0 pre act) pre act]
        simp [String.append_assoc]
      | cons f1 tl2 =>
        simp only [DirNode.files, DirNode.dirName]
        rw [navGo_append (.mk rp dn (f0 :: f1 :: tl2) subs) (h ++ "  <li><strong>" ++ dn ++ "</strong>\n") pre act,
          navGo_append (.mk rp dn (f0 :: f1 :: tl2) subs) ("" ++ "  <li><strong>" ++ dn ++ "</strong>\n") pre act,
          navSubsGo_append rest _ pre act,
          navSubsGo_append rest ("" ++ "  <li><strong>" ++ dn ++ "</strong>\n" ++ _ ++ "  </li>\n") pre act]
        simp [String.append_assoc]
end

/-- The text appended to the accumulator for one sub-directory entry of the
loop in `generateNavHtml`: the collapsed single link when the child holds
exactly one file, otherwise the `<strong>` heading, the recursively
rendered nested list, and the closing `</li>`. -/
def subFragment (s : DirNode) (pre : String) (act : List String) : String :=
  match s.files with
  | [f0] => navCollapsedItem s f0 pre act
  | _ => "  <li><strong>" ++ s.dirName ++ "</strong>\n" ++ navGo s "" pre act ++ "  </li>\n"

/-- The sub-directory loop processes one child by appending exactly its
fragment. -/
theorem navSubsGo_cons (s : DirNode) (rest : List DirNode) (h pre : String)
    (act : List String) :
    navSubsGo (s :: rest) h pre act = navSubsGo rest (h ++ subFragment s pre act) pre act := by
  obtain ⟨rp, dn, fs, subs⟩ := s
  cases fs with
  | nil =>
    simp only [navSubsGo, subFragment, DirNode.files, DirNode.dirName]
    congr 1
    rw [navGo_append]
    simp [String.append_assoc]
  | cons f0 tl =>
    cases tl with
    | nil => rfl
    | cons f1 tl2 =>
      simp only [navSubsGo, subFragment, DirNode.files, DirNode.dirName]
      congr 1
      rw [navGo_append]
      simp [String.append_assoc]

/-- File eligibility of the tree builder (`buildTree` in `src/main2.cpp`,
first variant): a regular file is kept iff its extension is `.htm` or
`.md`. -/
def eligibleFile (f : String) : Bool :=
  fsExtension f == ".htm" || fsExtension f == ".md"

mutual
/-- The `fullLinkPath` of every anchor `generateNavHtml` emits, in emission
order: one per file of the current node (`relativePath / targetFile`), and
per sub-directory either the collapsed alias link (child with exactly one
file) or, recursively, the anchors of its nested list. -/
def emittedTargets : DirNode → List (List String)
  | .mk rp _ fs subs =>
    fs.map (fun f => rp ++ [getTargetFilename f]) ++ emittedTargetsSubs subs
def emittedTargetsSubs : List DirNode → List (List String)
  | [] => []
  | s :: rest =>
    (match s.files with
     | [f0] => [s.relativePath ++ [getTargetFilename f0]]
     | _ => emittedTargets s) ++ emittedTargetsSubs rest
end

/-- The anchors contributed by a single sub-directory entry. -/
def subTargets (s : DirNode) : List (List String) :=
  match s.files with
  | [f0] => [s.relativePath ++ [getTargetFilename f0]]
  | _ => emittedTargets s

theorem emittedTargetsSubs_cons (s : DirNode) (rest : List DirNode) :
    emittedTargetsSubs (s :: rest) = subTargets s ++ emittedTargetsSubs rest := rfl

mutual
/-- The target path (`relativePath / getTargetFilename file`) of every file
stored anywhere in the tree — the spec's "TargetPath of some file in the
tree". -/
def treeTargets : DirNode → List (List String)
  | .mk rp _ fs subs =>
    fs.map (fun f => rp ++ [getTargetFilename f]) ++ treeTargetsSubs subs
def treeTargetsSubs : List DirNode → List (List String)
  | [] => []
  | s :: rest => treeTargets s ++ treeTargetsSubs rest
end

/-- How many of the anchors emitted by `generateNavHtml` are marked with
`class="active"`: the renderer sets the attribute exactly on those anchors
whose `fullLinkPath` equals `activeTargetFile`, and `emittedTargets` lists
the `fullLinkPath` of every emitted anchor. -/
def activeCount (node : DirNode) (act : List String) : Nat :=
  (emittedTargets node).count act

mutual
/-- The href string of every anchor `generateNavHtml` emits, in emission
order; each branch computes `urlPrefix + fullLinkPath.generic_string()`
exactly as the corresponding `std::format` call does, and the recursion

passes `urlPrefix` through unchanged exactly as the C++ recursion does. -/
def emittedHrefs : DirNode → String → List String
  | .mk rp _ fs subs, pre =>
    fs.map (fun f => pre ++ pathString (rp ++ [getTargetFilename f])) ++
      emittedHrefsSubs subs pre
def emittedHrefsSubs : List DirNode → String → List String
  | [], _ => []
  | s :: rest, pre =>
    (match s.files with
     | [f0] => [pre ++ pathString (s.relativePath ++ [getTargetFilename f0])]
     | _ => emittedHrefs s pre) ++ emittedHrefsSubs rest pre
end

/-- Structural well-formedness the tree builder guarantees for the tree it
hands to the renderer: files of a node are distinct and eligible, child
directory names are distinct (sibling names are unique on a real
filesystem), and each child's `relativePath` extends the parent's by the
child's own name (`fs::relative(entry, root)`). -/
inductive WF : DirNode → Prop where
  | mk : ∀ (rp : List String) (dn : String) (fs : List String) (subs : List DirNode),
      fs.Nodup →
      (∀ f ∈ fs, eligibleFile f = true) →
      (subs.map DirNode.dirName).Nodup →
      (∀ s ∈ subs, s.relativePath = rp ++ [s.dirName]) →
      (∀ s ∈ subs, WF s) →
      WF (.mk rp dn fs subs)

mutual
/-- Number of files stored anywhere in a node's subtree; `1` for a child
directory says "exactly one eligible file and no further eligible
descendants", the spec's collapsing condition. -/
def subtreeFileCount : DirNode → Nat
  | .mk _ _ fs subs => fs.length + subtreeFileCountSubs subs
def subtreeFileCountSubs : List DirNode → Nat
  | [] => 0
  | s :: rest => subtreeFileCount s + subtreeFileCountSubs rest
end

/-! Injectivity of the extension remap on eligible filenames, and
uniqueness of the emitted link targets in a well-formed tree. -/

theorem target_of_md (f : String) (h : fsExtension f = ".md") :
    getTargetFilename f = fsStem f ++ ".html" ∧
      f.data = (fsStem f).data ++ ['.', 'm', 'd'] ∧ (fsStem f).data ≠ [] := by
  obtain ⟨s, hs⟩ := (fsExtension_eq_iff_split f ".md" (by decide)).1 h
  have hstem : fsStem f = s := by unfold fsStem; rw [hs]
  obtain ⟨h1, _⟩ := fsExtSplit_sound f s ".md" hs
  refine ⟨?_, ?_, ?_⟩
  · unfold getTargetFilename; rw [if_pos h]
  · rw [hstem]; exact h1
  · rw [hstem]; exact fsExtSplit_stem_ne f s ".md" hs

theorem target_of_htm (f : String) (h : fsExtension f = ".htm") :
    getTargetFilename f = f ∧ ∃ sd, f.data = sd ++ ['.', 'h', 't', 'm'] := by
  constructor
  · unfold getTargetFilename
    rw [if_neg (by rw [h]; decide)]
  · obtain ⟨s, hs⟩ := (fsExtension_eq_iff_split f ".htm" (by decide)).1 h
    obtain ⟨h1, _⟩ := fsExtSplit_sound f s ".htm" hs
    exact ⟨s.data, h1⟩

theorem getTargetFilename_inj (f g : String) (hf : eligibleFile f = true)
    (hg : eligibleFile g = true) (hne : f ≠ g) :
    getTargetFilename f ≠ getTargetFilename g := by
  unfold eligibleFile at hf hg
  simp only [Bool.or_eq_true, beq_iff_eq] at hf hg
  have key : ∀ a b : String, fsExtension a = ".md" → fsExtension b = ".htm" →
      getTargetFilename a ≠ getTargetFilename b := by
    intro a b ha hb heq
    obtain ⟨ta, hda, _⟩ := target_of_md a ha
    obtain ⟨tb, sd, hdb⟩ := target_of_htm b hb
    rw [ta, tb] at heq
    have hdata := congrArg String.data heq
    have e1 : (fsStem a ++ ".html").data = (fsStem a).data ++ ['.', 'h', 't', 'm', 'l'] := rfl
    rw [e1, hdb] at hdata
    have := congrArg List.reverse hdata
    simp [List.reverse_append] at this
  cases hf with
  | inl hfh =>
    cases hg with
    | inl hgh =>
      obtain ⟨tf, _⟩ := target_of_htm f hfh
      obtain ⟨tg, _⟩ := target_of_htm g hgh
      rw [tf, tg]; exact hne
    | inr hgm => exact (key g f hgm hfh).symm
  | inr hfm =>
    cases hg with
    | inl hgh => exact key f g hfm hgh
    | inr hgm =>
      obtain ⟨tf, hdf, _⟩ := target_of_md f hfm
      obtain ⟨tg, hdg, _⟩ := target_of_md g hgm
      rw [tf, tg]
      intro heq
      have hdata := congrArg String.data heq
      have e1 : (fsStem f ++ ".html").data = (fsStem f).data ++ ['.', 'h', 't', 'm', 'l'] := rfl
      have e2 : (fsStem g ++ ".html").data = (fsStem g).data ++ ['.', 'h', 't', 'm', 'l'] := rfl
      rw [e1, e2] at hdata
      have hstem : (fsStem f).data = (fsStem g).data := by
        have := congrArg List.reverse hdata
        simp [List.reverse_append] at this
        have := congrArg List.reverse this
        simpa using this
      apply hne
      apply String.ext
      rw [hdf, hdg, hstem]

theorem emittedTargetsSubs_mem {t : List String} :
    ∀ {subs : List DirNode}, t ∈ emittedTargetsSubs subs → ∃ s ∈ subs, t ∈ subTargets s := by
  intro subs
  induction subs with
  | nil => intro h; simp [emittedTargetsSubs] at h
  | cons s rest ih =>
    intro h
    rw [emittedTargetsSubs_cons, List.mem_append] at h
    cases h with
    | inl h => exact ⟨s, by simp, h⟩
    | inr h =>
      obtain ⟨s', hs', ht'⟩ := ih h
      exact ⟨s', by simp [hs'], ht'⟩

/-- Every link target emitted below a node extends the node's relative
path by at least one component. -/
theorem emittedTargets_shape : ∀ {node : DirNode}, WF node →
    ∀ t ∈ emittedTargets node, ∃ u, u ≠ [] ∧ t = node.relativePath ++ u := by
  intro node hwf
  induction hwf with
  | mk rp dn fs subs hnodup helig hnames hrel hsub ih =>
    intro t ht
    simp only [emittedTargets, DirNode.relativePath] at ht ⊢
    rw [List.mem_append] at ht
    cases ht with
    | inl h1 =>
      obtain ⟨f, _, hf2⟩ := List.mem_map.1 h1
      exact ⟨[getTargetFilename f], by simp, hf2.symm⟩
    | inr h2 =>
      obtain ⟨s, hsmem, hts⟩ := emittedTargetsSubs_mem h2
      have hr := hrel s hsmem
      unfold subTargets at hts
      obtain ⟨rps, dns, fss, subss⟩ := s
      simp only [DirNode.relativePath, DirNode.dirName] at hr
      cases fss with
      | nil =>
        obtain ⟨u', hu', h⟩ := ih _ hsmem t hts
        simp only [DirNode.relativePath] at h
        refine ⟨dns :: u', by simp, ?_⟩
        rw [h, hr]
        simp
      | cons f0 tl =>
        cases tl with
        | nil =>
          simp only [DirNode.files, List.mem_singleton] at hts
          refine ⟨dns :: [getTargetFilename f0], by simp, ?_⟩
          rw [hts]
          simp only [DirNode.relativePath, DirNode.dirName]
          rw [hr]
          simp
        | cons f1 tl2 =>
          obtain ⟨u', hu', h⟩ := ih _ hsmem t hts
          simp only [DirNode.relativePath] at h
          refine ⟨dns :: u', by simp, ?_⟩
          rw [h, hr]
          simp

/-- The contribution of one sub-directory entry starts with the parent's
relative path followed by the child's own directory name. -/
theorem subTargets_shape (rp : List String) (s : DirNode) (hwf : WF s)
    (hrel : s.relativePath = rp ++ [s.dirName]) :
    ∀ t ∈ subTargets s, ∃ u, u ≠ [] ∧ t = rp ++ (s.dirName :: u) := by
  intro t ht
  unfold subTargets at ht
  obtain ⟨rps, dns, fss, subss⟩ := s
  simp only [DirNode.relativePath, DirNode.dirName] at hrel ⊢
  cases fss with
  | nil =>
    have ht' : t ∈ emittedTargets (.mk rps dns [] subss) := ht
    obtain ⟨u', hu', h⟩ := emittedTargets_shape hwf t ht'
    have h' : t = rps ++ u' := h
    exact ⟨u', hu', by rw [h', hrel]; simp⟩
  | cons f0 tl =>
    cases tl with
    | nil =>
      have ht' : t ∈ [rps ++ [getTargetFilename f0]] := ht
      rw [List.mem_singleton] at ht'
      exact ⟨[getTargetFilename f0], by simp, by rw [ht', hrel]; simp⟩
    | cons f1 tl2 =>
      have ht' : t ∈ emittedTargets (.mk rps dns (f0 :: f1 :: tl2) subss) := ht
      obtain ⟨u', hu', h⟩ := emittedTargets_shape hwf t ht'
      have h' : t = rps ++ u' := h
      exact ⟨u', hu', by rw [h', hrel]; simp⟩

theorem subTargets_nodup (s : DirNode) (hwf : WF s)
    (hnd : (emittedTargets s).Nodup) : (subTargets s).Nodup := by
  unfold subTargets
  obtain ⟨rps, dns, fss, subss⟩ := s
  cases fss with
  | nil => exact hnd
  | cons f0 tl =>
    cases tl with
    | nil => exact List.nodup_singleton _
    | cons f1 tl2 => exact hnd

theorem emittedTargetsSubs_nodup (rp : List String) :
    ∀ (subs : List DirNode),
      (subs.map DirNode.dirName).Nodup →
      (∀ s ∈ subs, s.relativePath = rp ++ [s.dirName]) →
      (∀ s ∈ subs, WF s) →
      (∀ s ∈ subs, (emittedTargets s).Nodup) →
      (emittedTargetsSubs subs).Nodup := by
  intro subs
  induction subs with
  | nil => intro _ _ _ _; simp [emittedTargetsSubs]
  | cons s rest ih =>
    intro hnames hrel hwf hnd
    rw [emittedTargetsSubs_cons, List.nodup_append]
    simp only [List.map_cons, List.nodup_cons] at hnames
    refine ⟨subTargets_nodup s (hwf s (by simp)) (hnd s (by simp)), ?_, ?_⟩
    · exact ih hnames.2 (fun x hx => hrel x (by simp [hx]))
        (fun x hx => hwf x (by simp [hx])) (fun x hx => hnd x (by simp [hx]))
    · intro t ht ht'
      obtain ⟨u, hu, hts⟩ := subTargets_shape rp s (hwf s (by simp))
        (hrel s (by simp)) t ht
      obtain ⟨s', hs', hts'⟩ := emittedTargetsSubs_mem ht'
      obtain ⟨u', hu', hts2⟩ := subTargets_shape rp s' (hwf s' (by simp [hs']))
        (hrel s' (by simp [hs'])) t hts'
      rw [hts] at hts2
      have hcan := List.append_cancel_left hts2
      have hdn : s.dirName = s'.dirName := (List.cons.injEq _ _ _ _ ▸ hcan).1
      exact hnames.1 (hdn ▸ List.mem_map.2 ⟨s', hs', rfl⟩)

/-- In a well-formed tree the emitted link targets are pairwise distinct:
each target is emitted by exactly one anchor. -/
theorem emittedTargets_nodup : ∀ {node : DirNode}, WF node →
    (emittedTargets node).Nodup := by
  intro node hwf
  induction hwf with
  | mk rp dn fs subs hnodup helig hnames hrel hsub ih =>
    simp only [emittedTargets]
    rw [List.nodup_append]
    refine ⟨?_, ?_, ?_⟩
    · apply List.Nodup.map_on ?_ hnodup
      intro x hx y hy hxy
      have h1 : getTargetFilename x = getTargetFilename y := by
        have h2 := List.append_cancel_left hxy
        simpa using h2
      by_contra hne'
      exact getTargetFilename_inj x y (helig x hx) (helig y hy) hne' h1
    · exact emittedTargetsSubs_nodup rp subs hnames hrel hsub ih
    · intro t ht ht'
      obtain ⟨f, _, hf2⟩ := List.mem_map.1 ht
      obtain ⟨s, hsmem, hts⟩ := emittedTargetsSubs_mem ht'
      obtain ⟨u, hu, hts2⟩ := subTargets_shape rp s (hsub s hsmem)
        (hrel s hsmem) t hts
      rw [← hf2] at hts2
      have hcan := List.append_cancel_left hts2
      have : ([] : List String) = u := (List.cons.injEq _ _ _ _ ▸ hcan).2
      exact hu this.symm

/-! The tree builder (`buildTree` in `src/main2.cpp`).  The filesystem
enumeration is modelled by a raw entry list per directory; the order of
that list is the (unspecified) order in which `fs::directory_iterator`
yields the entries. -/

mutual
inductive RawEntry where
  | file : String → RawEntry
  | dir : String → RawDir → RawEntry
inductive RawDir where
  | mk : List RawEntry → RawDir
end

def entryName : RawEntry → String
  | .file n => n
  | .dir n _ => n

/-- The eligible regular files of one directory listing, in enumeration
order (the `is_regular_file` branch of the loop in `buildTree`). -/
def rawFiles : List RawEntry → List String
  | [] => []
  | .file n :: rest => if eligibleFile n then n :: rawFiles rest else rawFiles rest
  | .dir _ _ :: rest => rawFiles rest

/-- The names of the sub-directories of one directory listing, in
enumeration order. -/
def dirNamesOf : List RawEntry → List String
  | [] => []
  | .file _ :: rest => dirNamesOf rest
  | .dir n _ :: rest => n :: dirNamesOf rest

/-- The sort key used by `std::ranges::sort(node.subdirs, {}, &DirNode::dirName)`. -/
def nodeLe (a b : DirNode) : Prop := a.dirName ≤ b.dirName

instance : DecidableRel nodeLe := fun a b =>
  inferInstanceAs (Decidable (a.dirName ≤ b.dirName))

instance : IsTotal DirNode nodeLe := ⟨fun a b => le_total a.dirName b.dirName⟩

instance : IsTrans DirNode nodeLe := ⟨fun _ _ _ hab hbc => le_trans hab hbc⟩

mutual
/-- Model of `buildTree` (`src/main2.cpp`, first variant): collect the
eligible files and the recursively built sub-directory nodes in
enumeration order, then sort the files lexicographically and the children
by directory name.  `rp` is `fs::relative(currentPath, rootPath)` (the
empty list for the root) and `dn` is `currentPath.filename()`. -/
def buildTree : RawDir → List String → String → DirNode
  | .mk es, rp, dn =>
    .mk rp dn (List.insertionSort (· ≤ ·) (rawFiles es))
      (List.insertionSort nodeLe (buildSubs es rp))
def buildSubs : List RawEntry → List String → List DirNode
  | [], _ => []
  | .file _ :: rest, rp => buildSubs rest rp
  | .dir n d :: rest, rp => buildTree d (rp ++ [n]) n :: buildSubs rest rp
end

/-- Sibling names are unique at every level of a real filesystem. -/
inductive GoodNames : RawDir → Prop where
  | mk : ∀ es, (es.map entryName).Nodup →
      (∀ e ∈ es, ∀ n d, e = RawEntry.dir n d → GoodNames d) →
      GoodNames (.mk es)

mutual
/-- Two raw entries describe the same filesystem object, possibly with the
contents of a directory enumerated in different orders. -/
inductive EntryEquiv : RawEntry → RawEntry → Prop where
  | file : ∀ n, EntryEquiv (.file n) (.file n)
  | dir : ∀ n d1 d2, RawEquiv d1 d2 → EntryEquiv (.dir n d1) (.dir n d2)
/-- Two raw directory trees describe the same unchanged content root, the
enumeration order of every directory listing being arbitrary. -/
inductive RawEquiv : RawDir → RawDir → Prop where
  | mk : ∀ es1 mid es2, List.Forall₂ EntryEquiv es1 mid → mid.Perm es2 →
      RawEquiv (.mk es1) (.mk es2)
end

theorem rawFiles_eq_filterMap (es : List RawEntry) :
    rawFiles es = es.filterMap (fun e =>
      match e with
      | .file n => if eligibleFile n then some n else none
      | .dir _ _ => none) := by
  induction es with
  | nil => rfl
  | cons e rest ih =>
    cases e with
    | file n =>
      by_cases hn : eligibleFile n
      · simp [rawFiles, hn, List.filterMap_cons, ih]
      · simp [rawFiles, hn, List.filterMap_cons, ih]
    | dir n d => simp [rawFiles, List.filterMap_cons, ih]

theorem buildSubs_eq_filterMap (es : List RawEntry) (rp : List String) :
    buildSubs es rp = es.filterMap (fun e =>
      match e with
      | .file _ => none
      | .dir n d => some (buildTree d (rp ++ [n]) n)) := by
  induction es with
  | nil => rfl
  | cons e rest ih =>
    cases e with
    | file n => simp [buildSubs, List.filterMap_cons, ih]
    | dir n d => simp [buildSubs, List.filterMap_cons, ih]

theorem buildSubs_names (es : List RawEntry) (rp : List String) :
    (buildSubs es rp).map DirNode.dirName = dirNamesOf es := by
  induction es with
  | nil => rfl
  | cons e rest ih =>
    cases e with
    | file n => simpa [buildSubs, dirNamesOf] using ih
    | dir n d =>
      cases d with
      | mk es' =>
        simp only [buildSubs, dirNamesOf, List.map_cons, ih]
        rfl

theorem dirNamesOf_sublist (es : List RawEntry) :
    (dirNamesOf es).Sublist (es.map entryName) := by
  induction es with
  | nil => simp [dirNamesOf]
  | cons e rest ih =>
    cases e with
    | file n =>
      simp only [dirNamesOf, List.map_cons]
      exact ih.cons (entryName (.file n))
    | dir n d =>
      simp only [dirNamesOf, List.map_cons, entryName]
      exact ih.cons₂ n

theorem sortStr_eq_of_perm (l1 l2 : List String) (hp : l1.Perm l2) :
    List.insertionSort (· ≤ ·) l1 = List.insertionSort (· ≤ ·) l2 := by
  haveI : IsAntisymm String (· ≤ ·) := ⟨fun _ _ h1 h2 => le_antisymm h1 h2⟩
  have hps : (List.insertionSort (· ≤ ·) l1).Perm (List.insertionSort (· ≤ ·) l2) :=
    ((List.perm_insertionSort _ l1).trans hp).trans (List.perm_insertionSort _ l2).symm
  exact List.eq_of_perm_of_sorted hps
    (List.sorted_insertionSort _ l1) (List.sorted_insertionSort _ l2)

theorem sortNodes_eq_of_perm (l1 l2 : List DirNode) (hp : l1.Perm l2)
    (hn : (l1.map DirNode.dirName).Nodup) :
    List.insertionSort nodeLe l1 = List.insertionSort nodeLe l2 := by
  haveI : IsAntisymm DirNode (fun a b => a.dirName < b.dirName) :=
    ⟨fun _ _ h1 h2 => (lt_asymm h1 h2).elim⟩
  have hps : (List.insertionSort nodeLe l1).Perm (List.insertionSort nodeLe l2) :=
    ((List.perm_insertionSort _ l1).trans hp).trans (List.perm_insertionSort _ l2).symm
  have hn1 : ((List.insertionSort nodeLe l1).map DirNode.dirName).Nodup :=
    (((List.perm_insertionSort nodeLe l1).map DirNode.dirName).nodup_iff).2 hn
  have hn2 : ((List.insertionSort nodeLe l2).map DirNode.dirName).Nodup :=
    ((hps.map DirNode.dirName).nodup_iff).1 hn1
  have toStrict : ∀ (l : List DirNode), l.Sorted nodeLe →
      (l.map DirNode.dirName).Nodup →
      l.Pairwise (fun a b => a.dirName < b.dirName) := by
    intro l hs hnd
    have hne : l.Pairwise (fun a b => a.dirName ≠ b.dirName) := List.pairwise_map.1 hnd
    have hand := List.Pairwise.and hs hne
    exact hand.imp (fun h => lt_of_le_of_ne h.1 h.2)
  exact List.eq_of_perm_of_sorted hps
    (toStrict _ (List.sorted_insertionSort nodeLe l1) hn1)
    (toStrict _ (List.sorted_insertionSort nodeLe l2) hn2)

theorem rawFiles_congr : ∀ {es1 mid : List RawEntry},
    List.Forall₂ EntryEquiv es1 mid → rawFiles es1 = rawFiles mid := by
  intro es1 mid h
  induction h with
  | nil => rfl
  | cons he hrest ih =>
    cases he with
    | file n => simp only [rawFiles, ih]
    | dir n d1 d2 _ => simp only [rawFiles, ih]

mutual
/-- Two enumerations of the same unchanged content root build identical
trees: the sorting of files and of children by name cancels the
enumeration order, provided sibling names are unique. -/
theorem buildTree_equiv : ∀ {d1 d2 : RawDir}, RawEquiv d1 d2 → GoodNames d1 →
    ∀ (rp : List String) (dn : String), buildTree d1 rp dn = buildTree d2 rp dn
  | _, _, .mk es1 mid es2 hF hP, .mk _ hnames hrec, rp, dn => by
    show DirNode.mk rp dn _ _ = DirNode.mk rp dn _ _
    have hfiles1 : rawFiles es1 = rawFiles mid := rawFiles_congr hF
    have hfiles2 : (rawFiles mid).Perm (rawFiles es2) := by
      rw [rawFiles_eq_filterMap, rawFiles_eq_filterMap]
      exact hP.filterMap _
    have hsubs1 : buildSubs es1 rp = buildSubs mid rp := buildSubs_equiv hF hrec rp
    have hsubs2 : (buildSubs mid rp).Perm (buildSubs es2 rp) := by
      rw [buildSubs_eq_filterMap, buildSubs_eq_filterMap]
      exact hP.filterMap _
    have hnames1 : ((buildSubs es1 rp).map DirNode.dirName).Nodup := by
      rw [buildSubs_names]
      exact hnames.sublist (dirNamesOf_sublist es1)
    congr 1
    · exact sortStr_eq_of_perm _ _ (hfiles1 ▸ hfiles2)
    · exact sortNodes_eq_of_perm _ _ (hsubs1 ▸ hsubs2) hnames1
theorem buildSubs_equiv : ∀ {es1 mid : List RawEntry},
    List.Forall₂ EntryEquiv es1 mid →
    (∀ e ∈ es1, ∀ n d, e = RawEntry.dir n d → GoodNames d) →
    ∀ rp : List String, buildSubs es1 rp = buildSubs mid rp
  | _, _, .nil, _, _ => rfl
  | _, _, .cons he hrest, hG, rp => by
    cases he with
    | file n =>
      show buildSubs _ rp = buildSubs _ rp
      exact buildSubs_equiv hrest (fun e hm => hG e (by simp [hm])) rp
    | dir n da db hsub =>
      show buildTree da (rp ++ [n]) n :: buildSubs _ rp =
        buildTree db (rp ++ [n]) n :: buildSubs _ rp
      rw [buildTree_equiv hsub (hG _ (by simp) n da rfl) (rp ++ [n]) n,
        buildSubs_equiv hrest (fun e hm => hG e (by simp [hm])) rp]
end

/-! The render pipeline (`processFiles` in `src/main5.cpp`).  The external
collaborators (file reading, the md4c Markdown renderer, the inja template
engine) are abstract functions; a `none`/`Except.error` result models the
exception the C++ collaborator throws.  In the C++ code only the
`env.render` + `writeFile` pair sits inside a per-file `try`/`catch`;
`readFile` and `renderMarkdown` are called outside it, so their exceptions
propagate out of `processFiles` and end the run. -/

structure TemplateData where
  basePath : String
  title : String
  navigation : String
  content : String

structure Collab where
  readF : List String → Option String
  convert : String → Except String String
  applyTemplate : TemplateData → Except String String

/-- The per-file loop of `processFiles`: for each file compute the target
name, render the navigation from the tree root, read and convert the
source, build the template data, and apply the template.  A failing
template application is caught: the file is skipped and the loop
continues.  A failing read or conversion is an uncaught exception: the
loop stops and the error propagates (second component).  Writes performed
so far (`acc`) are kept. -/
def processFileList (rel : List String) (files : List String) (root : DirNode)
    (inputRoot outDir : List String) (co : Collab) (pre : String)
    (acc : List (List String × String)) : List (List String × String) × Option String :=
  match files with
  | [] => (acc, none)
  | f :: rest =>
    let tf := getTargetFilename f
    let nav := navGo root "" pre (rel ++ [tf])
    match co.readF (inputRoot ++ rel ++ [f]) with
    | none => (acc, some "Could not read file")
    | some raw =>
      match co.convert raw with
      | .error e => (acc, some e)
      | .ok content =>
        match co.applyTemplate ⟨pre, fsStem f, nav, content⟩ with
        | .error _ => processFileList rel rest root inputRoot outDir co pre acc
        | .ok out =>
          processFileList rel rest root inputRoot outDir co pre
            (acc ++ [(outDir ++ rel ++ [tf], out)])

mutual
/-- Model of `processFiles` (`src/main5.cpp`): handle the files of the
current node, then recurse into the sub-directories.  `create_directories`
has no effect on the modelled file store.  An uncaught exception (second
component `some e`) aborts the remaining walk. -/
def processFiles (node root : DirNode) (inputRoot outDir : List String) (co : Collab)
    (acc : List (List String × String)) : List (List String × String) × Option String :=
  match node with
  | .mk rp _ fs subs =>
    match processFileList rp fs root inputRoot outDir co (getBackPrefix rp) acc with
    | (acc2, some e) => (acc2, some e)
    | (acc2, none) => processSubs subs root inputRoot outDir co acc2
def processSubs (subs : List DirNode) (root : DirNode) (inputRoot outDir : List String)
    (co : Collab) (acc : List (List String × String)) :
    List (List String × String) × Option String :=
  match subs with
  | [] => (acc, none)
  | s :: rest =>
    match processFiles s root inputRoot outDir co acc with
    | (a2, some e) => (a2, some e)
    | (a2, none) => processSubs rest root inputRoot outDir co a2
end

/-- Modelled from the spec: the writes the per-file failure policy of the
specification prescribes for the files of one directory — every file in
walk order, skipped exactly when its read, conversion or templating fails,
rendered and written otherwise. -/
def goodWritesFiles (rel : List String) (files : List String) (root : DirNode)
    (inputRoot outDir : List String) (co : Collab) (pre : String) :
    List (List String × String) :=
  match files with
  | [] => []
  | f :: rest =>
    let tf := getTargetFilename f
    let nav := navGo root "" pre (rel ++ [tf])
    (match co.readF (inputRoot ++ rel ++ [f]) with
     | none => []
     | some raw =>
       match co.convert raw with
       | .error _ => []
       | .ok content =>
         match co.applyTemplate ⟨pre, fsStem f, nav, content⟩ with
         | .error _ => []
         | .ok out => [(outDir ++ rel ++ [tf], out)]) ++
      goodWritesFiles rel rest root inputRoot outDir co pre

mutual
/-- Modelled from the spec: the walk-ordered writes of the whole subtree
under the per-file failure policy. -/
def goodWrites (node root : DirNode) (inputRoot outDir : List String) (co : Collab) :
    List (List String × String) :=
  match node with
  | .mk rp _ fs subs =>
    goodWritesFiles rp fs root inputRoot outDir co (getBackPrefix rp) ++
      goodWritesSubs subs root inputRoot outDir co
def goodWritesSubs (subs : List DirNode) (root : DirNode) (inputRoot outDir : List String)
    (co : Collab) : List (List String × String) :=
  match subs with
  | [] => []
  | s :: rest =>
    goodWrites s root inputRoot outDir co ++ goodWritesSubs rest root inputRoot outDir co
end

/-! The output store (`main` of `src/main2.cpp`, lines 262-269): build the
tree, delete the whole output root if it exists, recreate it, then run the
render pipeline.  The filesystem is modelled as an association list from
paths to contents; entries written by the run are placed in front of the
wiped remainder of the store. -/

abbrev FileStore := List (List String × String)

/-- Model of `fs::remove_all(outputDir)`: every entry under the output
root disappears. -/
def removeTree (root : List String) (store : FileStore) : FileStore :=
  store.filter (fun e => !(root.isPrefixOf e.1))

/-- The entries of the store that live under a directory root. -/
def filterUnder (root : List String) (store : FileStore) : FileStore :=
  store.filter (fun e => root.isPrefixOf e.1)

/-- Model of `main` (`src/main2.cpp`, first variant): parse the
configuration and templates (not modelled), build the tree once, wipe and
recreate the output root, and render every page into the wiped store. -/
def runMain (raw : RawDir) (rootName : String) (inputRoot outDir : List String)
    (co : Collab) (store : FileStore) : FileStore :=
  let tree := buildTree raw [] rootName
  let cleaned := removeTree outDir store
  (processFiles tree tree inputRoot outDir co []).1 ++ cleaned

/-! The configuration parser (`parseConfig` in `src/main2.cpp`, first
variant). -/

structure SsgConfig where
  headerPath : String
  footerPath : String
  outputDir : String

/-- Model of one `getline` iteration of `parseConfig`: `line.find('=')`
finds the first `'='`; when absent the line is ignored, otherwise the part
before it is the key and everything after it — untrimmed — the value. -/
def splitKV (line : String) : Option (String × String) :=
  let k := line.data.takeWhile (fun c => c ≠ '=')
  if k.length = line.data.length then none
  else some (String.mk k, String.mk (line.data.drop (k.length + 1)))

def applyConfigLine (cfg : SsgConfig) (line : String) : SsgConfig :=
  match splitKV line with
  | none => cfg
  | some (k, v) =>
    if k = "header" then { cfg with headerPath := v }
    else if k = "footer" then { cfg with footerPath := v }
    else if k = "output" then { cfg with outputDir := v }
    else cfg

/-- The `Config` defaults of `src/main2.cpp`: empty header and footer
paths, output directory `output_site`. -/
def defaultConfig : SsgConfig := ⟨"", "", "output_site"⟩

/-- Model of `parseConfig`: fold the line handler over the lines of the
configuration file. -/
def parseConfig (lines : List String) : SsgConfig :=
  lines.foldl applyConfigLine defaultConfig

/-- The recognized key of a configuration line, when the line has one. -/
def keyOf (line : String) : Option String := (splitKV line).map (·.1)

/-! Supporting lemmas for the render pipeline. -/

theorem processFileList_total (rel : List String) (root : DirNode)
    (inputRoot outDir : List String) (co : Collab) (pre : String)
    (hr : ∀ p, (co.readF p).isSome) (hc : ∀ s, ∃ t, co.convert s = .ok t) :
    ∀ (files : List String) (acc : List (List String × String)),
      processFileList rel files root inputRoot outDir co pre acc =
        (acc ++ goodWritesFiles rel files root inputRoot outDir co pre, none) := by
  intro files
  induction files with
  | nil => intro acc; simp [processFileList, goodWritesFiles]
  | cons f rest ih =>
    intro acc
    obtain ⟨raw, hraw⟩ := Option.isSome_iff_exists.1 (hr (inputRoot ++ rel ++ [f]))
    obtain ⟨content, hcv⟩ := hc raw
    simp only [processFileList, goodWritesFiles, hraw, hcv]
    cases htm : co.applyTemplate ⟨pre, fsStem f,
        navGo root "" pre (rel ++ [getTargetFilename f]), content⟩ with
    | error e => simp [ih]
    | ok out => simp [ih]

mutual
/-- When reads and conversions never fail, the walk never aborts, keeps
the already accumulated writes untouched, and appends exactly the writes
prescribed by the per-file failure policy (files whose template
application fails are skipped, nothing else is affected). -/
theorem processFiles_total : ∀ (node root : DirNode) (inputRoot outDir : List String)
    (co : Collab), (∀ p, (co.readF p).isSome) → (∀ s, ∃ t, co.convert s = .ok t) →
    ∀ acc, processFiles node root inputRoot outDir co acc =
      (acc ++ goodWrites node root inputRoot outDir co, none)
  | .mk rp dn fs subs, root, inputRoot, outDir, co, hr, hc, acc => by
    have hfl := processFileList_total rp root inputRoot outDir co (getBackPrefix rp) hr hc fs acc
    have hsub := processSubs_total subs root inputRoot outDir co hr hc
      (acc ++ goodWritesFiles rp fs root inputRoot outDir co (getBackPrefix rp))
    simp only [processFiles, goodWrites]
    rw [hfl]
    simp [hsub]
theorem processSubs_total : ∀ (subs : List DirNode) (root : DirNode)
    (inputRoot outDir : List String) (co : Collab),
    (∀ p, (co.readF p).isSome) → (∀ s, ∃ t, co.convert s = .ok t) →
    ∀ acc, processSubs subs root inputRoot outDir co acc =
      (acc ++ goodWritesSubs subs root inputRoot outDir co, none)
  | [], root, inputRoot, outDir, co, hr, hc, acc => by
    simp [processSubs, goodWritesSubs]
  | s :: rest, root, inputRoot, outDir, co, hr, hc, acc => by
    have hpf := processFiles_total s root inputRoot outDir co hr hc acc
    have hps := processSubs_total rest root inputRoot outDir co hr hc
      (acc ++ goodWrites s root inputRoot outDir co)
    simp only [processSubs, goodWritesSubs]
    rw [hpf]
    simp [hps]
end

theorem processFileList_paths (rel : List String) (root : DirNode)
    (inputRoot outDir : List String) (co : Collab) (pre : String) :
    ∀ (files : List String) (acc : List (List String × String))
      (e : List String × String),
      e ∈ (processFileList rel files root inputRoot outDir co pre acc).1 →
      e ∈ acc ∨ outDir <+: e.1 := by
  intro files
  induction files with
  | nil => intro acc e he; exact Or.inl he
  | cons f rest ih =>
    intro acc e he
    simp only [processFileList] at he
    split at he
    · exact Or.inl he
    · split at he
      · exact Or.inl he
      · split at he
        · exact ih acc e he
        · rcases ih _ e he with hin | hp
          · rw [List.mem_append] at hin
            rcases hin with hin | hin
            · exact Or.inl hin
            · rw [List.mem_singleton] at hin
              subst hin
              right
              show outDir <+: outDir ++ rel ++ [getTargetFilename f]
              rw [List.append_assoc]
              exact List.prefix_append _ _
          · exact Or.inr hp

mutual
theorem processFiles_paths : ∀ (node root : DirNode) (inputRoot outDir : List String)
    (co : Collab) (acc : List (List String × String)) (e : List String × String),
    e ∈ (processFiles node root inputRoot outDir co acc).1 →
    e ∈ acc ∨ outDir <+: e.1
  | .mk rp dn fs subs, root, inputRoot, outDir, co, acc, e => by
    intro he
    simp only [processFiles] at he
    cases hfl : processFileList rp fs root inputRoot outDir co (getBackPrefix rp) acc with
    | mk acc2 err =>
      rw [hfl] at he
      cases err with
      | some msg =>
        have : e ∈ acc2 := he
        rcases processFileList_paths rp root inputRoot outDir co (getBackPrefix rp)
          fs acc e (by rw [hfl]; exact this) with h1 | h2
        · exact Or.inl h1
        · exact Or.inr h2
      | none =>
        have he2 := processSubs_paths subs root inputRoot outDir co acc2 e he
        rcases he2 with h1 | h2
        · exact processFileList_paths rp root inputRoot outDir co (getBackPrefix rp)
            fs acc e (by rw [hfl]; exact h1)
        · exact Or.inr h2
theorem processSubs_paths : ∀ (subs : List DirNode) (root : DirNode)
    (inputRoot outDir : List String) (co : Collab)
    (acc : List (List String × String)) (e : List String × String),
    e ∈ (processSubs subs root inputRoot outDir co acc).1 →
    e ∈ acc ∨ outDir <+: e.1
  | [], root, inputRoot, outDir, co, acc, e => fun he => Or.inl he
  | s :: rest, root, inputRoot, outDir, co, acc, e => by
    intro he
    simp only [processSubs] at he
    cases hpf : processFiles s root inputRoot outDir co acc with
    | mk a2 err =>
      rw [hpf] at he
      cases err with
      | some msg =>
        have : e ∈ a2 := he
        exact processFiles_paths s root inputRoot outDir co acc e (by rw [hpf]; exact this)
      | none =>
        rcases processSubs_paths rest root inputRoot outDir co a2 e he with h1 | h2
        · exact processFiles_paths s root inputRoot outDir co acc e (by rw [hpf]; exact h1)
        · exact Or.inr h2
end

/-! Supporting lemmas for the output store. -/

theorem filterUnder_removeTree (root : List String) (store : FileStore) :
    filterUnder root (removeTree root store) = [] := by
  unfold filterUnder removeTree
  induction store with
  | nil => rfl
  | cons e rest ih =>
    cases hb : root.isPrefixOf e.1 with
    | false => simp [List.filter_cons, hb, ih]
    | true => simp [List.filter_cons, hb, ih]

theorem filterUnder_all (root : List String) (store : FileStore)
    (h : ∀ e ∈ store, root <+: e.1) : filterUnder root store = store := by
  unfold filterUnder
  rw [List.filter_eq_self]
  intro e he
  exact List.isPrefixOf_iff_prefix.2 (h e he)

theorem filterUnder_append (root : List String) (a b : FileStore) :
    filterUnder root (a ++ b) = filterUnder root a ++ filterUnder root b :=
  List.filter_append _ _

/-! Supporting lemmas for the configuration parser. -/

theorem takeWhile_all_ne (l : List Char) (h : '=' ∉ l) :
    l.takeWhile (fun c => c ≠ '=') = l := by
  induction l with
  | nil => rfl
  | cons c rest ih =>
    simp only [List.mem_cons, not_or] at h
    have hc : (fun x => decide (x ≠ '=')) c = true := by
      show decide (c ≠ '=') = true
      simp only [decide_eq_true_eq]
      exact fun hcc => h.1 hcc.symm
    rw [List.takeWhile_cons, if_pos hc, ih h.2]

theorem takeWhile_stop (l1 l2 : List Char) (h : '=' ∉ l1) :
    (l1 ++ '=' :: l2).takeWhile (fun c => c ≠ '=') = l1 := by
  induction l1 with
  | nil =>
    show List.takeWhile _ ('=' :: l2) = []
    rw [List.takeWhile_cons, if_neg (by simp)]
  | cons c rest ih =>
    simp only [List.mem_cons, not_or] at h
    have hc : (fun x => decide (x ≠ '=')) c = true := by
      show decide (c ≠ '=') = true
      simp only [decide_eq_true_eq]
      exact fun hcc => h.1 hcc.symm
    show List.takeWhile _ (c :: (rest ++ '=' :: l2)) = c :: rest
    rw [List.takeWhile_cons, if_pos hc, ih h.2]

theorem splitKV_no_eq (line : String) (h : '=' ∉ line.data) : splitKV line = none := by
  unfold splitKV
  rw [takeWhile_all_ne line.data h]
  simp

theorem splitKV_split (k v : String) (hk : '=' ∉ k.data) :
    splitKV (k ++ "=" ++ v) = some (k, v) := by
  unfold splitKV
  have hdata : (k ++ "=" ++ v).data = k.data ++ '=' :: v.data := by
    show (k.data ++ ("=").data) ++ v.data = k.data ++ '=' :: v.data
    simp
  rw [hdata, takeWhile_stop k.data v.data hk]
  have hlen : k.data.length ≠ (k.data ++ '=' :: v.data).length := by simp
  rw [if_neg hlen]
  have hdrop : (k.data ++ '=' :: v.data).drop (k.data.length + 1) = v.data := by
    have h2 : k.data ++ '=' :: v.data = (k.data ++ ['=']) ++ v.data := by simp
    have h3 : k.data.length + 1 = (k.data ++ ['=']).length := by simp
    rw [h2, h3, List.drop_left]
  rw [hdrop]

theorem applyConfigLine_not_output (cfg : SsgConfig) (line : String)
    (h : keyOf line ≠ some "output") :
    (applyConfigLine cfg line).outputDir = cfg.outputDir := by
  unfold applyConfigLine
  unfold keyOf at h
  cases hs : splitKV line with
  | none => rfl
  | some pr =>
    obtain ⟨k, v⟩ := pr
    have hk : k ≠ "output" := by
      intro hkk
      apply h
      rw [hs, hkk]
      rfl
    by_cases h1 : k = "header"
    · simp [h1]
    · by_cases h2 : k = "footer"
      · simp [h1, h2]
      · simp [h1, h2, hk]

theorem foldl_config_not_output (lines : List String) :
    ∀ (cfg : SsgConfig), (∀ l ∈ lines, keyOf l ≠ some "output") →
      (lines.foldl applyConfigLine cfg).outputDir = cfg.outputDir := by
  induction lines with
  | nil => intro cfg _; rfl
  | cons l rest ih =>
    intro cfg h
    show ((rest.foldl applyConfigLine (applyConfigLine cfg l))).outputDir = _
    rw [ih _ (fun x hx => h x (by simp [hx]))]
    exact applyConfigLine_not_output cfg l (h l (by simp))

/-! Supporting lemmas for the climb prefix and the emitted hrefs. -/

/-- The string made of `d` repetitions of the up-segment token `"../"`. -/
def upSegs : Nat → String
  | 0 => ""
  | n + 1 => "../" ++ upSegs n

theorem foldl_up_eq (l : List String) :
    ∀ s : String, l.foldl (fun acc _ => acc ++ "../") s = s ++ upSegs l.length := by
  induction l with
  | nil => intro s; show s = s ++ ""; simp
  | cons a rest ih =>
    intro s
    show rest.foldl _ (s ++ "../") = s ++ upSegs (rest.length + 1)
    rw [ih (s ++ "../")]
    show s ++ "../" ++ upSegs rest.length = s ++ upSegs (rest.length + 1)
    rw [String.append_assoc]
    rfl

mutual
theorem emittedHrefs_eq : ∀ (node : DirNode) (pre : String),
    emittedHrefs node pre = (emittedTargets node).map (fun t => pre ++ pathString t)
  | .mk rp dn fs subs, pre => by
    simp only [emittedHrefs, emittedTargets, List.map_append, List.map_map]
    congr 1
    exact emittedHrefsSubs_eq subs pre
theorem emittedHrefsSubs_eq : ∀ (subs : List DirNode) (pre : String),
    emittedHrefsSubs subs pre = (emittedTargetsSubs subs).map (fun t => pre ++ pathString t)
  | [], _ => rfl
  | s :: rest, pre => by
    obtain ⟨rp, dn, fs, subs'⟩ := s
    cases fs with
    | nil =>
      show emittedHrefs (.mk rp dn [] subs') pre ++ emittedHrefsSubs rest pre = _
      rw [emittedHrefs_eq (.mk rp dn [] subs') pre, emittedHrefsSubs_eq rest pre]
      simp [emittedTargetsSubs, subTargets, DirNode.files]
    | cons f0 tl =>
      cases tl with
      | nil =>
        show [pre ++ pathString (rp ++ [getTargetFilename f0])] ++ emittedHrefsSubs rest pre = _
        rw [emittedHrefsSubs_eq rest pre]
        simp [emittedTargetsSubs, subTargets, DirNode.relativePath, DirNode.files]
      | cons f1 tl2 =>
        show emittedHrefs (.mk rp dn (f0 :: f1 :: tl2) subs') pre ++ emittedHrefsSubs rest pre = _
        rw [emittedHrefs_eq (.mk rp dn (f0 :: f1 :: tl2) subs') pre, emittedHrefsSubs_eq rest pre]
        simp [emittedTargetsSubs, subTargets, DirNode.files]
end

/-- A duplicate-free list counts an element it holds exactly once. -/
theorem nodup_count_one {α : Type} [BEq α] [LawfulBEq α] :
    ∀ {l : List α} {a : α}, l.Nodup → a ∈ l → l.count a = 1 := by
  intro l
  induction l with
  | nil => intro a _ h; simp at h
  | cons x xs ih =>
    intro a d h
    rw [List.nodup_cons] at d
    rw [List.count_cons]
    rcases List.mem_cons.1 h with rfl | hmem
    · have h0 : xs.count a = 0 := by
        rw [List.count_eq_zero]
        exact d.1
      simp [h0]
    · have hne : a ≠ x := fun hx => d.1 (hx ▸ hmem)
      rw [ih d.2 hmem]
      simp [hne]
      exact fun hxa => hne hxa.symm

/-! Concrete instances used by the counterexamples and witnesses. -/

/-- A child directory holding exactly one file but also a sub-directory
with two further files. -/
def c1sub : DirNode :=
  .mk ["Sub"] "Sub" ["a.md"] [.mk ["Sub", "Deep"] "Deep" ["b.md", "c.md"] []]

/-- A tree whose only two content files sit below a collapsed single-file
directory. -/
def c3root : DirNode :=
  .mk [] "" [] [.mk ["D"] "D" ["a.md"] [.mk ["D", "E"] "E" ["b.md", "c.md"] []]]

/-- A single-file root used by the C3 witness. -/
def c3wroot : DirNode := .mk [] "" ["index.md"] []

/-- Collaborators whose template application fails exactly on the page
titled `bad`. -/
def c2co : Collab :=
  ⟨fun _ => some ("body"),
   fun s => .ok s,
   fun d => if d.title = "bad" then .error ("missing key") else .ok d.content⟩

/-- The two-file directory rendered with `c2co`. -/
def c2tree : DirNode := .mk [] "" ["bad.md", "good.md"] []

/-- Collaborators whose Markdown conversion fails exactly on the content
of `a.md`. -/
def c2badco : Collab :=
  ⟨fun p => if p = ["in", "a.md"] then some ("BAD") else some ("fine"),
   fun s => if s = "BAD" then .error ("Markdown parsing failed.") else .ok s,
   fun d => .ok d.content⟩

/-- The two-file directory rendered with `c2badco`. -/
def c2tree2 : DirNode := .mk [] "" ["a.md", "b.md"] []

/-- The directory holding only the healthy sibling of `c2tree2`. -/
def c2tree3 : DirNode := .mk [] "" ["b.md"] []

/-- One enumeration of a small content root. -/
def c6r1 : RawDir := .mk [.file "b.md", .file "a.md", .dir "S" (.mk [.file "x.md"])]

/-- The same content root enumerated with the two files swapped. -/
def c6r2 : RawDir := .mk [.file "a.md", .file "b.md", .dir "S" (.mk [.file "x.md"])]

/-! The claims. -/

/-- Claim C1 (counterexample): a child directory with exactly one direct
file but further eligible descendants (two files in `Sub/Deep`) is still
collapsed into a single link — the nested list the claim demands, together
with links to the descendants, is absent from the fragment. -/
theorem C1_counterexample :
    subFragment c1sub "" [] = "  <li><a href=\"Sub/a.html\">Sub</a></li>\n" ∧
    ¬ (c1sub.files.length = 1 ∧ subtreeFileCount c1sub = 1) ∧
    subtreeFileCount c1sub = 3 := by
  refine ⟨by decide, by decide, by decide⟩

/-- Claim C1 (amended): the renderer collapses a child into a single link
iff the child directly holds exactly one eligible file, regardless of its
descendants (which are then omitted); a child with zero or with two or
more direct files always produces a `<strong>` non-link heading followed
by a nested list; and the sub-directory loop appends exactly this
fragment. -/
theorem C1_collapse_iff_single_file (s : DirNode) (pre : String) (act : List String) :
    (∀ f0, s.files = [f0] → subFragment s pre act = navCollapsedItem s f0 pre act) ∧
    (s.files.length ≠ 1 →
      subFragment s pre act =
        "  <li><strong>" ++ s.dirName ++ "</strong>\n" ++ navGo s "" pre act ++ "  </li>\n") ∧
    (∀ (rest : List DirNode) (h : String),
      navSubsGo (s :: rest) h pre act = navSubsGo rest (h ++ subFragment s pre act) pre act) := by
  refine ⟨?_, ?_, fun rest h => navSubsGo_cons s rest h pre act⟩
  · intro f0 hf
    unfold subFragment
    rw [hf]
  · intro hlen
    unfold subFragment
    obtain ⟨rp, dn, fs, subs⟩ := s
    cases fs with
    | nil => rfl
    | cons f0 tl =>
      cases tl with
      | nil => exact absurd rfl hlen
      | cons f1 tl2 => rfl

/-- Claim C1 witness: a directory with exactly one file is rendered as the
collapsed link. -/
theorem C1_collapse_iff_single_file_witness :
    subFragment (DirNode.mk ["G"] "G" ["x.md"] []) "" [] =
      navCollapsedItem (DirNode.mk ["G"] "G" ["x.md"] []) "x.md" "" [] :=
  (C1_collapse_iff_single_file (DirNode.mk ["G"] "G" ["x.md"] []) "" []).1 "x.md" rfl

/-- Claim C2 (counterexample): with collaborators whose conversion fails on
`a.md`, the run aborts with the conversion error and the sibling `b.md`
is not rendered, although rendering `b.md` alone succeeds. -/
theorem C2_counterexample :
    processFiles c2tree2 c2tree2 ["in"] ["out"] c2badco [] =
      ([], some ("Markdown parsing failed.")) ∧
    processFiles c2tree3 c2tree3 ["in"] ["out"] c2badco [] =
      ([(["out", "b.html"], "fine")], none) := by
  refine ⟨by decide, by decide⟩

/-- Claim C2 (amended): a templating failure is caught per file — the
failing file is skipped, every other file is still written in walk order,
already accumulated writes stay untouched, and the run is not aborted;
this holds whenever reading and conversion succeed, because a conversion
failure (unlike a templating one) is not caught per file. -/
theorem C2_template_skip (node root : DirNode) (inputRoot outDir : List String)
    (co : Collab) (acc : List (List String × String))
    (hr : ∀ p, (co.readF p).isSome) (hc : ∀ s, ∃ t, co.convert s = .ok t) :
    processFiles node root inputRoot outDir co acc =
      (acc ++ goodWrites node root inputRoot outDir co, none) :=
  processFiles_total node root inputRoot outDir co hr hc acc

/-- Claim C2 witness: with a template that fails on the page titled `bad`,
the run finishes, skips `bad.md`, and still writes `good.html`. -/
theorem C2_template_skip_witness :
    processFiles c2tree c2tree ["in"] ["out"] c2co [] =
      ([(["out", "good.html"], "body")], none) := by
  have h := C2_template_skip c2tree c2tree ["in"] ["out"] c2co []
    (fun _ => rfl) (fun s => ⟨s, rfl⟩)
  rw [h]
  decide

/-- Claim C3 (counterexample): `["D","E","b.html"]` is the TargetPath of a
file of the tree `c3root`, yet a render call with it as the active target
marks no link at all: the directory `D` is collapsed (one direct file), so
the subtree holding `b.md` is never emitted. -/
theorem C3_counterexample :
    WF c3root ∧ ["D", "E", "b.html"] ∈ treeTargets c3root ∧
      activeCount c3root ["D", "E", "b.html"] = 0 := by
  refine ⟨?_, by decide, by decide⟩
  refine WF.mk _ _ _ _ (by decide) (by decide) (by decide) ?_ ?_
  · intro s hs; rw [List.mem_singleton] at hs; subst hs; decide
  · intro s hs; rw [List.mem_singleton] at hs; subst hs
    refine WF.mk _ _ _ _ (by decide) (by decide) (by decide) ?_ ?_
    · intro s hs; rw [List.mem_singleton] at hs; subst hs; decide
    · intro s hs; rw [List.mem_singleton] at hs; subst hs
      exact WF.mk _ _ _ _ (by decide) (by decide) (by decide) (by simp) (by simp)

/-- Claim C3 (amended): in a well-formed tree, whenever the active target
is the `fullLinkPath` of an anchor the renderer actually emits (a target
not hidden below a collapsed directory), exactly one emitted anchor — the
file's own item or its directory-collapsed alias — carries the active
mark, namely the one whose path equals the active target. -/
theorem C3_active_unique (node : DirNode) (act : List String)
    (hwf : WF node) (hmem : act ∈ emittedTargets node) :
    activeCount node act = 1 := by
  unfold activeCount
  exact nodup_count_one (emittedTargets_nodup hwf) hmem

/-- Claim C3 witness: rendering the one-file root with its own target
active marks exactly one link. -/
theorem C3_active_unique_witness : activeCount c3wroot ["index.html"] = 1 :=
  C3_active_unique c3wroot ["index.html"]
    (WF.mk [] "" ["index.md"] [] (by decide) (by decide) (by decide) (by simp) (by simp))
    (by decide)

/-- Claim C4 (counterexample): the dot-file `".md"` ends in the source
extension, but `path::extension()` treats its leading period as no
extension start, so `getTargetFilename` returns it unchanged and the
result does not end in `.html`. -/
theorem C4_counterexample :
    strEndsWith ".md" ".md" ∧ getTargetFilename ".md" = ".md" ∧
      ¬ strEndsWith (getTargetFilename ".md") ".html" := by
  refine ⟨by decide, by decide, by decide⟩

/-- Claim C4 (amended): every filename ending in `.md` other than the bare
dot-file `".md"` has its extension rewritten to `.html`; `mapTarget` is
idempotent on it; and every filename not ending in `.md` is returned
unchanged. -/
theorem C4_mapTarget_spec (f : String) (h1 : strEndsWith f ".md") (h2 : f ≠ ".md") :
    getTargetFilename f = String.mk (f.data.take (f.data.length - 3)) ++ ".html" ∧
    getTargetFilename (getTargetFilename f) = getTargetFilename f ∧
    ∀ g : String, ¬ strEndsWith g ".md" → getTargetFilename g = g :=
  ⟨getTargetFilename_ends_md f h1 h2, getTargetFilename_idem f,
    fun g hg => getTargetFilename_not_md g hg⟩

/-- Claim C4 witness: `a.md` is rewritten to `a.html`. -/
theorem C4_mapTarget_spec_witness :
    getTargetFilename "a.md" =
      String.mk (("a.md").data.take (("a.md").data.length - 3)) ++ ".html" :=
  (C4_mapTarget_spec "a.md" (by decide) (by decide)).1

/-- Claim C5: the climb prefix is exactly one `"../"` per path component
(none for the root's empty path), and every href the renderer emits, at
every nesting depth, is the currently rendered file's prefix concatenated
with the target's root-relative path — the prefix is passed through the
recursion unchanged. -/
theorem C5_climb_and_href :
    getBackPrefix [] = "" ∧
    (∀ rp : List String, getBackPrefix rp = upSegs rp.length) ∧
    (∀ (node : DirNode) (pre : String),
      emittedHrefs node pre = (emittedTargets node).map (fun t => pre ++ pathString t)) := by
  refine ⟨rfl, ?_, emittedHrefs_eq⟩
  intro rp
  unfold getBackPrefix
  rw [foldl_up_eq]
  show "" ++ _ = _
  simp

/-- Claim C6: two runs of the tree builder over the same unchanged content
root — its directory listings enumerated in arbitrary orders — produce
structurally identical trees, and therefore byte-identical navigation
output. -/
theorem C6_build_deterministic (r1 r2 : RawDir) (rootName : String)
    (heq : RawEquiv r1 r2) (hg : GoodNames r1) :
    buildTree r1 [] rootName = buildTree r2 [] rootName ∧
    ∀ (h pre : String) (act : List String),
      navGo (buildTree r1 [] rootName) h pre act =
        navGo (buildTree r2 [] rootName) h pre act := by
  have hb := buildTree_equiv heq hg [] rootName
  exact ⟨hb, fun h pre act => by rw [hb]⟩

/-- Claim C6 witness: the two concrete enumerations of the same root build
the same tree. -/
theorem C6_build_deterministic_witness :
    buildTree c6r1 [] "root" = buildTree c6r2 [] "root" := by
  have heq : RawEquiv c6r1 c6r2 := by
    refine RawEquiv.mk _ _ _ ?_ (List.Perm.swap (RawEntry.file "a.md") (RawEntry.file "b.md") _)
    refine List.Forall₂.cons (EntryEquiv.file "b.md") ?_
    refine List.Forall₂.cons (EntryEquiv.file "a.md") ?_
    refine List.Forall₂.cons (EntryEquiv.dir "S" _ _ ?_) List.Forall₂.nil
    exact RawEquiv.mk _ _ _
      (List.Forall₂.cons (EntryEquiv.file "x.md") List.Forall₂.nil) (List.Perm.refl _)
  have hg : GoodNames c6r1 := by
    refine GoodNames.mk _ (by decide) ?_
    intro e he n d hd
    simp only [c6r1, List.mem_cons, List.not_mem_nil, or_false] at he
    rcases he with rfl | rfl | rfl
    · simp at hd
    · simp at hd
    · have hd' : d = RawDir.mk [.file "x.md"] := by
        cases hd
        rfl
      subst hd'
      refine GoodNames.mk _ (by decide) ?_
      intro e2 he2 n2 d2 hd2
      simp only [List.mem_cons, List.not_mem_nil, or_false] at he2
      subst he2
      simp at hd2
  exact (C6_build_deterministic c6r1 c6r2 "root" heq hg).1

/-- Claim C7: the part of the file store under the output root after a run
is exactly the set of pages this run wrote — the output root is wiped
before any page is rendered, so the result is independent of whatever
stale state the store held before. -/
theorem C7_output_fresh (raw : RawDir) (rootName : String)
    (inputRoot outDir : List String) (co : Collab) (store store2 : FileStore) :
    filterUnder outDir (runMain raw rootName inputRoot outDir co store) =
      (processFiles (buildTree raw [] rootName) (buildTree raw [] rootName)
        inputRoot outDir co []).1 ∧
    filterUnder outDir (runMain raw rootName inputRoot outDir co store) =
      filterUnder outDir (runMain raw rootName inputRoot outDir co store2) := by
  have key : ∀ st : FileStore,
      filterUnder outDir (runMain raw rootName inputRoot outDir co st) =
        (processFiles (buildTree raw [] rootName) (buildTree raw [] rootName)
          inputRoot outDir co []).1 := by
    intro st
    have hwrites : filterUnder outDir
        (processFiles (buildTree raw [] rootName) (buildTree raw [] rootName)
          inputRoot outDir co []).1 =
        (processFiles (buildTree raw [] rootName) (buildTree raw [] rootName)
          inputRoot outDir co []).1 := by
      apply filterUnder_all
      intro e he
      rcases processFiles_paths _ _ _ _ _ _ _ he with h1 | h2
      · exact absurd h1 (List.not_mem_nil e)
      · exact h2
    simp only [runMain]
    rw [filterUnder_append, filterUnder_removeTree, List.append_nil, hwrites]
  exact ⟨key store, by rw [key store, key store2]⟩

/-- Claim C8: a child directory with no files and no sub-directories does
not break the renderer: the loop emits its heading, an empty nested list
(`<ul>` immediately closed), and the item close marker, then continues
with the remaining children. -/
theorem C8_empty_dir_safe (rp : List String) (dn : String) (rest : List DirNode)
    (h pre : String) (act : List String) :
    navSubsGo (DirNode.mk rp dn [] [] :: rest) h pre act =
      navSubsGo rest
        (h ++ ("  <li><strong>" ++ dn ++ "</strong>\n" ++ "<ul>\n" ++ "</ul>\n" ++ "  </li>\n"))
        pre act := by
  rw [navSubsGo_cons]
  congr 1
  unfold subFragment
  show h ++ ("  <li><strong>" ++ DirNode.dirName (.mk rp dn [] []) ++ "</strong>\n" ++
    navGo (.mk rp dn [] []) "" pre act ++ "  </li>\n") = _
  simp only [DirNode.dirName]
  have hnav : navGo (.mk rp dn [] []) "" pre act = "<ul>\n" ++ "</ul>\n" := by
    show ("" ++ "<ul>\n") ++ "</ul>\n" = "<ul>\n" ++ "</ul>\n"
    congr 1
  rw [hnav]
  simp [String.append_assoc]

/-- Claim C9: the navigation renderer only appends to its accumulator
string: the result of any call extends the incoming string, so fragments
from successive calls compose without corrupting earlier output. -/
theorem C9_append_only (node : DirNode) (s pre : String) (act : List String) :
    ∃ t, navGo node s pre act = s ++ t :=
  ⟨navGo node "" pre act, navGo_append node s pre act⟩

/-- Claim C10: the configuration parser ignores lines without `'='`,
splits every other line at the first `'='` into key and untrimmed value,
lets the last occurrence of a recognized key win, and leaves the output
directory at its default `output_site` when no `output` key occurs. -/
theorem C10_parseConfig_behavior :
    (∀ (cfg : SsgConfig) (line : String), '=' ∉ line.data → applyConfigLine cfg line = cfg) ∧
    (∀ (cfg : SsgConfig) (k v : String), '=' ∉ k.data →
      applyConfigLine cfg (k ++ "=" ++ v) =
        (if k = "header" then { cfg with headerPath := v }
         else if k = "footer" then { cfg with footerPath := v }
         else if k = "output" then { cfg with outputDir := v }
         else cfg)) ∧
    (∀ (ls1 ls2 : List String) (v : String),
      (∀ l ∈ ls2, keyOf l ≠ some "output") →
      (parseConfig (ls1 ++ ("output" ++ "=" ++ v) :: ls2)).outputDir = v) ∧
    (∀ lines : List String, (∀ l ∈ lines, keyOf l ≠ some "output") →
      (parseConfig lines).outputDir = "output_site") := by
  refine ⟨?_, ?_, ?_, ?_⟩
  · intro cfg line h
    unfold applyConfigLine
    rw [splitKV_no_eq line h]
  · intro cfg k v hk
    unfold applyConfigLine
    rw [splitKV_split k v hk]
  · intro ls1 ls2 v h
    unfold parseConfig
    rw [List.foldl_append]
    simp only [List.foldl_cons]
    rw [foldl_config_not_output ls2 _ h]
    unfold applyConfigLine
    rw [splitKV_split "output" v (by decide)]
    simp
  · intro lines h
    exact foldl_config_not_output lines defaultConfig h

/-- Claim C10 witness: a separator-free line is ignored, a key/value line
is split untrimmed, the last `output` line wins, and the default output
directory survives when no `output` key occurs. -/
theorem C10_parseConfig_behavior_witness :
    applyConfigLine defaultConfig "no separator here" = defaultConfig ∧
    (parseConfig (["header=h.html"] ++ ("output" ++ "=" ++ "one") :: ["footer=f.html"])).outputDir
      = "one" ∧
    (parseConfig ["header=h.html"]).outputDir = "output_site" := by
  refine ⟨C10_parseConfig_behavior.1 defaultConfig ("no separator here") (by decide),
    C10_parseConfig_behavior.2.2.1 ["header=h.html"] ["footer=f.html"] "one" (by decide),
    C10_parseConfig_behavior.2.2.2 ["header=h.html"] (by decide)⟩
